import Mathlib

/-!
Verification of the multi-threaded Sudoku validator (`src/sudoku.c`).

The C program is embedded shallowly:

* the grid `int **grid` (1-indexed, row 0 / column 0 ignored) becomes a total
  function `Nat → Nat → Int`; only cells `(r, c)` with `1 ≤ r, c ≤ psize` are
  ever read by the embedded code, matching the allocation in
  `readSudokuPuzzle`;
* the presence array `int foundVals[size + 1]` of `checkRow` / `checkCol` /
  `checkBox` becomes a `List Bool` of length `size + 1`; the unchecked store
  `foundVals[v] = 1` is in bounds exactly when `0 ≤ v ≤ size`, and an
  out-of-bounds store (undefined behaviour in C) is modelled as `none`;
* the verdict arrays `rowValidity` / `colValidity` / `boxValidity`
  (`-1` = unchecked, `0` = invalid, `1` = valid) become total maps
  `Nat → Int` updated by `vset`;
* the `pthread` fan-out is modelled two ways: `checkPuzzle` runs the unit
  checkers sequentially in dispatch order (the intended schedule), threading
  the global `boxCount` counter explicitly; `raceStep`/`raceRun` model the
  statement-level interleaving of the tail of `checkBox`
  (`params->validity[boxCount] = …; boxCount = boxCount + 1;`), where the
  global `boxCount` is read and written by racing workers.
-/

/-- The shared body of `checkRow`/`checkCol`/`checkBox` (the three are textual
copies): one store `foundVals[v] = 1`.  The C array has indices `0 … N`, so
the store is in bounds iff `0 ≤ v ≤ N`; otherwise the C program writes out of
bounds (undefined behaviour), modelled as `none`. -/
def markStep (N : Nat) (fv : List Bool) (v : Int) : Option (List Bool) :=
  if 0 ≤ v ∧ v ≤ (N : Int) then some (fv.set v.toNat true) else none

/-- The marking loop `for (i = 1; i <= size; i++) foundVals[vals[i]] = 1;`
over an initial all-`0` presence array (index 0 of the C array is left
uninitialised but is never read afterwards, so initialising it to `false` is
observationally identical). -/
def markVals (N : Nat) (vals : List Int) : Option (List Bool) :=
  vals.foldlM (markStep N) (List.replicate (N + 1) false)

/-- The scan `for (i = 1; i <= size; i++) if (foundVals[i] == 0) …`:
every value `1 … N` must have been seen. -/
def coversAll (N : Nat) (fv : List Bool) : Bool :=
  (List.range N).all (fun i => fv.getD (i + 1) false)

/-- Verdict computation shared by the three unit checkers: `some 1` (VALID)
when all of `1 … N` were seen, `some 0` (INVALID) otherwise, `none` when the
marking loop performed an out-of-bounds store. -/
def unitVerdict (N : Nat) (vals : List Int) : Option Int :=
  (markVals N vals).map (fun fv => if coversAll N fv then 1 else 0)

/-- The values read by `checkRow`: `puzzle[row][1 … size]`. -/
def rowVals (grid : Nat → Nat → Int) (size row : Nat) : List Int :=
  (List.range size).map (fun i => grid row (i + 1))

/-- The values read by `checkCol`: `puzzle[1 … size][column]`. -/
def colVals (grid : Nat → Nat → Int) (size col : Nat) : List Int :=
  (List.range size).map (fun i => grid (i + 1) col)

/-- Structurally recursive floor square root, the embedding of the
`(int) sqrt(...)` calls into `<math.h>`: `sqrtLoop k n` is the largest
`j ≤ k` with `j * j ≤ n`.  (`Nat.sqrt` itself is defined by well-founded
recursion and does not reduce inside the kernel; this definition does, and
`intSqrt_eq_sqrt` proves the two agree.) -/
def sqrtLoop : Nat → Nat → Nat
  | 0, _ => 0
  | k + 1, n => if (k + 1) * (k + 1) ≤ n then k + 1 else sqrtLoop k n

/-- Floor square root. -/
def intSqrt (n : Nat) : Nat := sqrtLoop n n

/-- The values read by `checkBox`: a `length × length` block with top-left
corner `(row, col)`, where `length = sqrt(size)` is recomputed inside
`checkBox`. -/
def boxVals (grid : Nat → Nat → Int) (size row col : Nat) : List Int :=
  (List.range (intSqrt size)).flatMap
    (fun dr => (List.range (intSqrt size)).map (fun dc => grid (row + dr) (col + dc)))

/-- Verdict of `checkRow` for one row. -/
def checkRow (size : Nat) (grid : Nat → Nat → Int) (row : Nat) : Option Int :=
  unitVerdict size (rowVals grid size row)

/-- Verdict of `checkCol` for one column. -/
def checkCol (size : Nat) (grid : Nat → Nat → Int) (col : Nat) : Option Int :=
  unitVerdict size (colVals grid size col)

/-- Verdict of `checkBox` for the box whose top-left corner is `(row, col)`. -/
def checkBox (size : Nat) (grid : Nat → Nat → Int) (row col : Nat) : Option Int :=
  unitVerdict size (boxVals grid size row col)

/-- Pointwise update of a verdict array. -/
def vset (a : Nat → Int) (i : Nat) (x : Int) : Nat → Int :=
  fun j => if j = i then x else a j

/-- `rowValidity` / `colValidity` / `boxValidity` right after the
initialisation loop: every slot holds the sentinel `-1` (UNCHECKED). -/
def emptyValidity : Nat → Int := fun _ => -1

/-- The inner-loop body of `verifyPuzzleComplete` for one row: whether
`puzzle[row][col] == 0` for some `col` in `1 … size` (the C loop breaks at the
first such column, which does not change the outcome). -/
def rowHasZero (grid : Nat → Nat → Int) (size row : Nat) : Bool :=
  (List.range size).any (fun c => grid row (c + 1) == 0)

/-- `verifyPuzzleComplete`: starts with `complete = true` and lowers it to
`false` on any zero cell. -/
def verifyPuzzleComplete (grid : Nat → Nat → Int) (size : Nat) : Bool :=
  (List.range size).foldl
    (fun complete r => if rowHasZero grid size (r + 1) then false else complete) true

/-- The row fan-out of `checkPuzzle`, run in dispatch order: the thread for
`row = r + 1` writes its verdict into `rowValidity[r + 1]`. -/
def rowPhase (psize : Nat) (grid : Nat → Nat → Int) (a : Nat → Int) : Option (Nat → Int) :=
  (List.range psize).foldlM
    (fun a r => (checkRow psize grid (r + 1)).map (fun d => vset a (r + 1) d)) a

/-- The column fan-out of `checkPuzzle`, run in dispatch order. -/
def colPhase (psize : Nat) (grid : Nat → Nat → Int) (a : Nat → Int) : Option (Nat → Int) :=
  (List.range psize).foldlM
    (fun a r => (checkCol psize grid (r + 1)).map (fun d => vset a (r + 1) d)) a

/-- The top-left corners enumerated by
`for (row = 1; row <= psize; row += boxSize)` with
`boxSize = sqrt(psize)`: the values `1, 1 + B, 1 + 2B, …` that are `≤ psize`,
i.e. `⌈psize / B⌉` of them (none when `psize = 0`, the only case with
`B = 0`, where the loop guard `1 <= psize` fails at once). -/
def boxStarts (psize : Nat) : List Nat :=
  (List.range ((psize + intSqrt psize - 1) / intSqrt psize)).map
    (fun k => 1 + k * intSqrt psize)

/-- The nested box-dispatch loops of `checkPuzzle`, in row-major order. -/
def boxPairs (psize : Nat) : List (Nat × Nat) :=
  (boxStarts psize).flatMap (fun r => (boxStarts psize).map (fun c => (r, c)))

/-- One `checkBox` execution, including its use of the *global* `boxCount`:
the verdict is stored into slot `boxCount` (not a slot derived from the box's
position) and `boxCount` is incremented.  The state is
`(boxValidity, boxCount)`. -/
def boxStep (psize : Nat) (grid : Nat → Nat → Int) (st : (Nat → Int) × Nat)
    (rc : Nat × Nat) : Option ((Nat → Int) × Nat) :=
  (checkBox psize grid rc.1 rc.2).map (fun d => (vset st.1 st.2 d, st.2 + 1))

/-- The box fan-out of `checkPuzzle`, run in dispatch order. -/
def boxPhase (psize : Nat) (grid : Nat → Nat → Int) (st : (Nat → Int) × Nat) :
    Option ((Nat → Int) × Nat) :=
  (boxPairs psize).foldlM (boxStep psize grid) st

/-- The aggregation loop of `checkPuzzle` over `i = 1 … psize`
(`fuel` is the number of remaining iterations).  Returns
`(valid, orchestration-error-printed)`: a `-1` (UNCHECKED) slot prints
`ERROR: not all … were checked`, sets `*valid = false` and returns; a `0`
(INVALID) slot sets `*valid = false` and returns. -/
def aggLoop (rv cv bv : Nat → Int) : Nat → Nat → Bool × Bool
  | _, 0 => (true, false)
  | i, fuel + 1 =>
    if rv i = -1 ∨ cv i = -1 ∨ bv i = -1 then (false, true)
    else if rv i = 0 ∨ cv i = 0 ∨ bv i = 0 then (false, false)
    else aggLoop rv cv bv (i + 1) fuel

/-- The aggregation stage of `checkPuzzle`. -/
def aggregate (psize : Nat) (rv cv bv : Nat → Int) : Bool × Bool :=
  aggLoop rv cv bv 1 psize

/-- Observable outcome of one `checkPuzzle` call.  `valid = none` models the
out-parameter `*valid` never being written (the early return on an incomplete
puzzle).  `orchErr` records whether an `ERROR: not all … were checked`
message was printed.  `boxCount` is the value of the global counter after the
call, and `dispatched` counts the unit-checker threads created. -/
structure PuzzleResult where
  complete : Bool
  valid : Option Bool
  orchErr : Bool
  boxCount : Nat
  dispatched : Nat
deriving DecidableEq

/-- `checkPuzzle`, with the worker bodies executed sequentially in dispatch
order (rows, then columns, then boxes) and the global `boxCount` threaded
explicitly as `bc`.  `none` models an out-of-bounds presence-array store
inside a unit checker (undefined behaviour in C). -/
def checkPuzzle (psize : Nat) (grid : Nat → Nat → Int) (bc : Nat) : Option PuzzleResult :=
  if verifyPuzzleComplete grid psize then do
    let rv ← rowPhase psize grid emptyValidity
    let cv ← colPhase psize grid emptyValidity
    let bst ← boxPhase psize grid (emptyValidity, bc)
    let agg := aggregate psize rv cv bst.1
    some ⟨true, some agg.1, agg.2, bst.2, psize + psize + (boxPairs psize).length⟩
  else
    some ⟨false, none, false, bc, 0⟩

/-- Grid built from a row-major list of rows, 1-indexed like the C grid;
cells outside the given rows read as `0` (they are never read by runs at the
matching size). -/
def gridOfRows (rows : List (List Int)) : Nat → Nat → Int :=
  fun r c => (rows.getD (r - 1) []).getD (c - 1) 0

/-- The all-ones grid; at size 1 this is the solved puzzle `[1]`. -/
def onesGrid : Nat → Nat → Int := fun _ _ => 1

/-- The all-zeros grid (every cell unfilled). -/
def zeroGrid : Nat → Nat → Int := fun _ _ => 0

/-- Shared state of the racing `checkBox` workers: the global `boxCount`, the
per-worker program counter (`0`: about to execute
`params->validity[boxCount] = …;`, `1`: about to execute
`boxCount = boxCount + 1;`, `2`: finished), and the verdict-slot stores
performed so far, recorded as `(worker, slot)` pairs in execution order. -/
structure BoxRaceState where
  boxCount : Nat
  pc : Nat → Nat
  writes : List (Nat × Nat)

/-- The initial race state: `boxCount` starts at `1` (its C initialiser) and
every worker is about to execute its verdict store. -/
def raceInit : BoxRaceState := ⟨1, fun _ => 0, []⟩

/-- One atomic statement of worker `w` in the tail of `checkBox`
(statement granularity: each of the two statements reads the shared global
`boxCount` once).  `pc = 0`: `params->validity[boxCount] = verdict;` stores
into the slot named by the *current* value of the shared counter.
`pc = 1`: `boxCount = boxCount + 1;`. -/
def raceStep (s : BoxRaceState) (w : Nat) : BoxRaceState :=
  match s.pc w with
  | 0 => { s with
           writes := s.writes ++ [(w, s.boxCount)]
           pc := fun u => if u = w then 1 else s.pc u }
  | 1 => { s with
           boxCount := s.boxCount + 1
           pc := fun u => if u = w then 2 else s.pc u }
  | _ => s

/-- Run the racing `checkBox` workers under an interleaving `sched`
(the list of worker ids in the order the scheduler lets them execute one
statement). -/
def raceRun (s : BoxRaceState) (sched : List Nat) : BoxRaceState :=
  sched.foldl raceStep s

/-- `1, 2, …, N` as `Int`s: the spec's value domain for one unit. -/
def oneToN (N : Nat) : List Int :=
  (List.range N).map (fun i => ((i + 1 : Nat) : Int))

/-! ### Helper lemmas about the marking loop -/

theorem sqrtLoop_eq_sqrt (n : Nat) : ∀ k, Nat.sqrt n ≤ k → sqrtLoop k n = Nat.sqrt n := by
  intro k
  induction k with
  | zero =>
    intro h
    have h0 : Nat.sqrt n = 0 := by omega
    rw [h0]
    rfl
  | succ k ih =>
    intro h
    show (if (k + 1) * (k + 1) ≤ n then k + 1 else sqrtLoop k n) = Nat.sqrt n
    by_cases hc : (k + 1) * (k + 1) ≤ n
    · rw [if_pos hc]
      have h1 : k + 1 ≤ Nat.sqrt n := Nat.le_sqrt.mpr hc
      omega
    · rw [if_neg hc]
      apply ih
      have h2 : ¬(k + 1 ≤ Nat.sqrt n) := fun hcon => hc (Nat.le_sqrt.mp hcon)
      omega

theorem intSqrt_eq_sqrt (n : Nat) : intSqrt n = Nat.sqrt n := by
  rw [intSqrt]
  exact sqrtLoop_eq_sqrt n n (Nat.sqrt_le_self n)

theorem foldlM_markStep_ok (N : Nat) :
    ∀ (vals : List Int) (fv : List Bool),
      (∀ v ∈ vals, 0 ≤ v ∧ v ≤ (N : Int)) →
      vals.foldlM (markStep N) fv =
        some (vals.foldl (fun a v => a.set v.toNat true) fv) := by
  intro vals
  induction vals with
  | nil => intro fv _; rfl
  | cons v vs ih =>
    intro fv h
    have hv := h v (List.mem_cons_self _ _)
    rw [List.foldlM_cons, List.foldl_cons]
    show (markStep N fv v >>= fun b => vs.foldlM (markStep N) b) = _
    rw [markStep, if_pos hv]
    show vs.foldlM (markStep N) (fv.set v.toNat true) = _
    exact ih (fv.set v.toNat true) (fun w hw => h w (List.mem_cons_of_mem _ hw))

theorem foldlM_markStep_bad (N : Nat) :
    ∀ (vals : List Int) (fv : List Bool),
      (∃ v ∈ vals, ¬(0 ≤ v ∧ v ≤ (N : Int))) →
      vals.foldlM (markStep N) fv = none := by
  intro vals
  induction vals with
  | nil => rintro fv ⟨v, hv, -⟩; cases hv
  | cons v vs ih =>
    rintro fv ⟨w, hw, hbad⟩
    rw [List.foldlM_cons]
    show (markStep N fv v >>= fun b => vs.foldlM (markStep N) b) = none
    rcases List.mem_cons.mp hw with rfl | hw'
    · rw [markStep, if_neg hbad]; rfl
    · by_cases hv : 0 ≤ v ∧ v ≤ (N : Int)
      · rw [markStep, if_pos hv]
        show vs.foldlM (markStep N) (fv.set v.toNat true) = none
        exact ih _ ⟨w, hw', hbad⟩
      · rw [markStep, if_neg hv]; rfl

theorem length_foldl_set :
    ∀ (vals : List Int) (fv : List Bool),
      (vals.foldl (fun a v => a.set v.toNat true) fv).length = fv.length := by
  intro vals
  induction vals with
  | nil => intro fv; rfl
  | cons v vs ih => intro fv; rw [List.foldl_cons, ih, List.length_set]

theorem getD_foldl_set (N : Nat) :
    ∀ (vals : List Int) (fv : List Bool) (k : Nat),
      fv.length = N + 1 →
      (∀ v ∈ vals, 0 ≤ v ∧ v ≤ (N : Int)) →
      k ≤ N →
      ((vals.foldl (fun a v => a.set v.toNat true) fv).getD k false = true ↔
        (fv.getD k false = true ∨ (k : Int) ∈ vals)) := by
  intro vals
  induction vals with
  | nil => intro fv k _ _ _; simp
  | cons v vs ih =>
    intro fv k hlen h hk
    have hv := h v (List.mem_cons_self _ _)
    rw [List.foldl_cons]
    have hlen' : (fv.set v.toNat true).length = N + 1 := by
      rw [List.length_set, hlen]
    rw [ih (fv.set v.toNat true) k hlen'
      (fun w hw => h w (List.mem_cons_of_mem _ hw)) hk]
    by_cases hvk : v.toNat = k
    · have hmem : (k : Int) = v := by
        rw [← hvk, Int.toNat_of_nonneg hv.1]
      have hset : (fv.set v.toNat true).getD k false = true := by
        rw [List.getD_eq_getElem?_getD, hvk,
          List.getElem?_set_eq_of_lt true (by omega)]
        rfl
      constructor
      · intro _
        exact Or.inr (by rw [hmem]; exact List.mem_cons_self _ _)
      · intro _
        exact Or.inl hset
    · have hset : (fv.set v.toNat true).getD k false = fv.getD k false := by
        rw [List.getD_eq_getElem?_getD, List.getElem?_set_ne hvk,
          ← List.getD_eq_getElem?_getD]
      rw [hset]
      have hne : (k : Int) ≠ v := by
        intro hkv
        exact hvk (by rw [← hkv]; omega)
      constructor
      · rintro (hfv | hmem)
        · exact Or.inl hfv
        · exact Or.inr (List.mem_cons_of_mem _ hmem)
      · rintro (hfv | hmem)
        · exact Or.inl hfv
        · rcases List.mem_cons.mp hmem with hkv | hmem'
          · exact absurd hkv hne
          · exact Or.inr hmem'

theorem coversAll_foldl (N : Nat) (vals : List Int)
    (h : ∀ v ∈ vals, 0 ≤ v ∧ v ≤ (N : Int)) :
    (coversAll N (vals.foldl (fun a v => a.set v.toNat true)
        (List.replicate (N + 1) false)) = true) ↔
      ∀ k ∈ Finset.Icc 1 N, (k : Int) ∈ vals := by
  rw [coversAll, List.all_eq_true]
  have key : ∀ i : Nat, i < N →
      (((vals.foldl (fun a v => a.set v.toNat true)
          (List.replicate (N + 1) false)).getD (i + 1) false = true) ↔
        (((i + 1 : Nat) : Int) ∈ vals)) := by
    intro i hi
    rw [getD_foldl_set N vals _ (i + 1) (List.length_replicate _ _) h (by omega)]
    have hrep : (List.replicate (N + 1) false).getD (i + 1) false = false := by
      rw [List.getD_eq_getElem?_getD, List.getElem?_replicate]
      by_cases hk : i + 1 < N + 1 <;> simp [hk]
    rw [hrep]
    simp
  constructor
  · intro hall k hk
    rw [Finset.mem_Icc] at hk
    have h2 := hall (k - 1) (List.mem_range.mpr (by omega))
    rw [key (k - 1) (by omega)] at h2
    have heq : k - 1 + 1 = k := by omega
    rwa [heq] at h2
  · intro hmem i hi
    rw [List.mem_range] at hi
    rw [key i hi]
    exact hmem (i + 1) (Finset.mem_Icc.mpr (by omega))

theorem unitVerdict_ok (N : Nat) (vals : List Int)
    (h : ∀ v ∈ vals, 0 ≤ v ∧ v ≤ (N : Int)) :
    ∃ w, unitVerdict N vals = some w ∧ (w = 0 ∨ w = 1) ∧
      ((w = 1) ↔ ∀ k ∈ Finset.Icc 1 N, (k : Int) ∈ vals) := by
  rw [unitVerdict, markVals, foldlM_markStep_ok N vals _ h, Option.map_some']
  by_cases hc : coversAll N (vals.foldl (fun a v => a.set v.toNat true)
      (List.replicate (N + 1) false)) = true
  · refine ⟨1, by rw [if_pos hc], Or.inr rfl, ?_⟩
    constructor
    · intro _
      exact (coversAll_foldl N vals h).mp hc
    · intro _
      rfl
  · refine ⟨0, by rw [if_neg hc], Or.inl rfl, ?_⟩
    constructor
    · intro h01
      exact absurd h01 (by norm_num)
    · intro hcov
      exact absurd ((coversAll_foldl N vals h).mpr hcov) hc

theorem unitVerdict_bad (N : Nat) (vals : List Int)
    (h : ∃ v ∈ vals, ¬(0 ≤ v ∧ v ≤ (N : Int))) :
    unitVerdict N vals = none := by
  rw [unitVerdict, markVals, foldlM_markStep_bad N vals _ h]
  rfl

theorem mem_oneToN (N : Nat) (x : Int) : x ∈ oneToN N ↔ 1 ≤ x ∧ x ≤ (N : Int) := by
  rw [oneToN, List.mem_map]
  constructor
  · rintro ⟨i, hi, rfl⟩
    rw [List.mem_range] at hi
    omega
  · intro hx
    refine ⟨x.toNat - 1, List.mem_range.mpr (by omega), by omega⟩

theorem nodup_oneToN (N : Nat) : (oneToN N).Nodup := by
  rw [oneToN]
  exact List.Nodup.map (fun a b h => by omega) (List.nodup_range N)

theorem length_oneToN (N : Nat) : (oneToN N).length = N := by
  rw [oneToN, List.length_map, List.length_range]

theorem covers_iff_perm (N : Nat) (vals : List Int) (hlen : vals.length = N) :
    (∀ k ∈ Finset.Icc 1 N, (k : Int) ∈ vals) ↔ vals.Perm (oneToN N) := by
  constructor
  · intro hcov
    have hsub : oneToN N ⊆ vals := by
      intro x hx
      rw [mem_oneToN] at hx
      have hx' : ((x.toNat : Nat) : Int) = x := Int.toNat_of_nonneg (by omega)
      have hm := hcov x.toNat (Finset.mem_Icc.mpr (by omega))
      rwa [hx'] at hm
    have hsp := List.subperm_of_subset (nodup_oneToN N) hsub
    exact (hsp.perm_of_length_le (le_of_eq (by rw [hlen, length_oneToN]))).symm
  · intro hperm k hk
    rw [Finset.mem_Icc] at hk
    rw [hperm.mem_iff, mem_oneToN]
    omega

/-! ### Helper lemmas about the fan-out phases -/

theorem phase_foldlM_ok (f : Nat → Option Int) (vd : Nat → Int) :
    ∀ (L : List Nat) (a : Nat → Int),
      (∀ r ∈ L, f r = some (vd r)) →
      (L.foldlM (fun a r => (f r).map (fun d => vset a (r + 1) d)) a) =
        some (L.foldl (fun a r => vset a (r + 1) (vd r)) a) := by
  intro L
  induction L with
  | nil => intro a _; rfl
  | cons r rs ih =>
    intro a h
    rw [List.foldlM_cons, List.foldl_cons]
    have h1 : f r = some (vd r) := h r (List.mem_cons_self _ _)
    show ((f r).map (fun d => vset a (r + 1) d) >>=
      fun b => rs.foldlM (fun a r => (f r).map (fun d => vset a (r + 1) d)) b) = _
    rw [h1, Option.map_some']
    show rs.foldlM (fun a r => (f r).map (fun d => vset a (r + 1) d))
      (vset a (r + 1) (vd r)) = _
    exact ih _ (fun x hx => h x (List.mem_cons_of_mem _ hx))

theorem phase_foldl_char (vd : Nat → Int) :
    ∀ (L : List Nat) (a : Nat → Int) (j : Nat),
      (L.foldl (fun a r => vset a (r + 1) (vd r)) a) j =
        if j - 1 ∈ L ∧ 1 ≤ j then vd (j - 1) else a j := by
  intro L
  induction L with
  | nil => intro a j; simp
  | cons r rs ih =>
    intro a j
    rw [List.foldl_cons, ih]
    by_cases hj : j - 1 ∈ rs ∧ 1 ≤ j
    · rw [if_pos hj, if_pos ⟨List.mem_cons_of_mem _ hj.1, hj.2⟩]
    · rw [if_neg hj]
      show (if j = r + 1 then vd r else a j) = _
      by_cases hjr : j = r + 1
      · have hmem : j - 1 ∈ r :: rs ∧ 1 ≤ j := by
          constructor
          · have he : j - 1 = r := by omega
            rw [he]
            exact List.mem_cons_self _ _
          · omega
        rw [if_pos hjr, if_pos hmem]
        have he : j - 1 = r := by omega
        rw [he]
      · have hcond : ¬(j - 1 ∈ r :: rs ∧ 1 ≤ j) := by
          rintro ⟨hmem, h1⟩
          rcases List.mem_cons.mp hmem with he | he
          · exact hjr (by omega)
          · exact hj ⟨he, h1⟩
        rw [if_neg hjr, if_neg hcond]

theorem boxfold_ok (psize : Nat) (grid : Nat → Nat → Int) (bvd : Nat × Nat → Int) :
    ∀ (P : List (Nat × Nat)) (a : Nat → Int) (c : Nat),
      (∀ p ∈ P, checkBox psize grid p.1 p.2 = some (bvd p)) →
      P.foldlM (boxStep psize grid) (a, c) =
        some (P.foldl (fun st p => (vset st.1 st.2 (bvd p), st.2 + 1)) (a, c)) := by
  intro P
  induction P with
  | nil => intro a c _; rfl
  | cons p ps ih =>
    intro a c h
    rw [List.foldlM_cons, List.foldl_cons]
    have h1 : checkBox psize grid p.1 p.2 = some (bvd p) := h p (List.mem_cons_self _ _)
    show (boxStep psize grid (a, c) p >>= fun b => ps.foldlM (boxStep psize grid) b) = _
    rw [boxStep, h1, Option.map_some']
    show ps.foldlM (boxStep psize grid) (vset a c (bvd p), c + 1) = _
    exact ih _ _ (fun q hq => h q (List.mem_cons_of_mem _ hq))

theorem boxfold_bc (bvd : Nat × Nat → Int) :
    ∀ (P : List (Nat × Nat)) (a : Nat → Int) (c : Nat),
      (P.foldl (fun st p => (vset st.1 st.2 (bvd p), st.2 + 1)) (a, c)).2 = c + P.length := by
  intro P
  induction P with
  | nil => intro a c; rfl
  | cons p ps ih =>
    intro a c
    rw [List.foldl_cons]
    show (ps.foldl (fun st p => (vset st.1 st.2 (bvd p), st.2 + 1))
      (vset a c (bvd p), c + 1)).2 = _
    rw [ih, List.length_cons]
    omega

theorem boxfold_frame (bvd : Nat × Nat → Int) :
    ∀ (P : List (Nat × Nat)) (a : Nat → Int) (c j : Nat), j < c →
      (P.foldl (fun st p => (vset st.1 st.2 (bvd p), st.2 + 1)) (a, c)).1 j = a j := by
  intro P
  induction P with
  | nil => intro a c j _; rfl
  | cons p ps ih =>
    intro a c j hj
    rw [List.foldl_cons]
    show (ps.foldl (fun st p => (vset st.1 st.2 (bvd p), st.2 + 1))
      (vset a c (bvd p), c + 1)).1 j = _
    rw [ih _ _ j (by omega)]
    show (if j = c then bvd p else a j) = a j
    rw [if_neg (by omega)]

theorem boxfold_vals (bvd : Nat × Nat → Int) :
    ∀ (P : List (Nat × Nat)) (a : Nat → Int) (c j : Nat), c ≤ j → j < c + P.length →
      ∃ p ∈ P, (P.foldl (fun st p => (vset st.1 st.2 (bvd p), st.2 + 1)) (a, c)).1 j = bvd p := by
  intro P
  induction P with
  | nil =>
    intro a c j h1 h2
    exfalso
    rw [List.length_nil] at h2
    omega
  | cons p ps ih =>
    intro a c j h1 h2
    rw [List.foldl_cons]
    by_cases hjc : j = c
    · refine ⟨p, List.mem_cons_self _ _, ?_⟩
      show (ps.foldl (fun st p => (vset st.1 st.2 (bvd p), st.2 + 1))
        (vset a c (bvd p), c + 1)).1 j = _
      rw [boxfold_frame bvd ps _ (c + 1) j (by omega)]
      show (if j = c then bvd p else a j) = bvd p
      rw [if_pos hjc]
    · rw [List.length_cons] at h2
      obtain ⟨q, hq, hval⟩ := ih (vset a c (bvd p)) (c + 1) j (by omega) (by omega)
      exact ⟨q, List.mem_cons_of_mem _ hq, hval⟩

theorem boxfold_allone (bvd : Nat × Nat → Int) :
    ∀ (P : List (Nat × Nat)) (a : Nat → Int) (c : Nat),
      ((∀ j, c ≤ j → j < c + P.length →
          (P.foldl (fun st p => (vset st.1 st.2 (bvd p), st.2 + 1)) (a, c)).1 j = 1) ↔
        ∀ p ∈ P, bvd p = 1) := by
  intro P
  induction P with
  | nil =>
    intro a c
    constructor
    · intro _ p hp
      exact absurd hp (List.not_mem_nil p)
    · intro _ j h1 h2
      exfalso
      rw [List.length_nil] at h2
      omega
  | cons p ps ih =>
    intro a c
    rw [List.foldl_cons, List.length_cons]
    constructor
    · intro hall q hq
      rcases List.mem_cons.mp hq with rfl | hq'
      · have h1 := hall c (le_refl c) (by omega)
        rw [boxfold_frame bvd ps _ (c + 1) c (by omega)] at h1
        have h2 : (if c = c then bvd q else a c) = 1 := h1
        rwa [if_pos rfl] at h2
      · exact (ih (vset a c (bvd p)) (c + 1)).mp
          (fun j hj1 hj2 => hall j (by omega) (by omega)) q hq'
    · intro hp j hj1 hj2
      by_cases hjc : j = c
      · rw [boxfold_frame bvd ps _ (c + 1) j (by omega)]
        show (if j = c then bvd p else a j) = 1
        rw [if_pos hjc]
        exact hp p (List.mem_cons_self _ _)
      · exact (ih (vset a c (bvd p)) (c + 1)).mpr
          (fun q hq => hp q (List.mem_cons_of_mem _ hq)) j (by omega) (by omega)

/-! ### Helper lemmas about aggregation and completeness -/

theorem aggLoop_char :
    ∀ (fuel start : Nat) (rv cv bv : Nat → Int),
      (∀ j, start ≤ j → j < start + fuel →
        (rv j = 0 ∨ rv j = 1) ∧ (cv j = 0 ∨ cv j = 1) ∧ (bv j = 0 ∨ bv j = 1)) →
      aggLoop rv cv bv start fuel =
        (decide (∀ j ∈ Finset.Ico start (start + fuel),
          rv j = 1 ∧ cv j = 1 ∧ bv j = 1), false) := by
  intro fuel
  induction fuel with
  | zero =>
    intro start rv cv bv _
    show (true, false) = _
    have hd : (∀ j ∈ Finset.Ico start (start + 0), rv j = 1 ∧ cv j = 1 ∧ bv j = 1) := by
      intro j hj
      rw [Finset.mem_Ico] at hj
      omega
    rw [decide_eq_true hd]
  | succ n ih =>
    intro start rv cv bv h
    have hstart := h start (le_refl _) (by omega)
    show (if rv start = -1 ∨ cv start = -1 ∨ bv start = -1 then (false, true)
      else if rv start = 0 ∨ cv start = 0 ∨ bv start = 0 then (false, false)
      else aggLoop rv cv bv (start + 1) n) = _
    have h1 : ¬(rv start = -1 ∨ cv start = -1 ∨ bv start = -1) := by
      intro hcon
      rcases hcon with hx | hx | hx
      · rcases hstart.1 with h0 | h0 <;> rw [h0] at hx <;> exact absurd hx (by norm_num)
      · rcases hstart.2.1 with h0 | h0 <;> rw [h0] at hx <;> exact absurd hx (by norm_num)
      · rcases hstart.2.2 with h0 | h0 <;> rw [h0] at hx <;> exact absurd hx (by norm_num)
    rw [if_neg h1]
    by_cases h2 : rv start = 0 ∨ cv start = 0 ∨ bv start = 0
    · rw [if_pos h2]
      have hnot : ¬(∀ j ∈ Finset.Ico start (start + (n + 1)),
          rv j = 1 ∧ cv j = 1 ∧ bv j = 1) := by
        intro hall
        have hs := hall start (Finset.mem_Ico.mpr ⟨le_refl _, by omega⟩)
        rcases h2 with h0 | h0 | h0
        · rw [hs.1] at h0
          exact absurd h0 (by norm_num)
        · rw [hs.2.1] at h0
          exact absurd h0 (by norm_num)
        · rw [hs.2.2] at h0
          exact absurd h0 (by norm_num)
      rw [decide_eq_false hnot]
    · rw [if_neg h2]
      push_neg at h2
      have hall1 : rv start = 1 ∧ cv start = 1 ∧ bv start = 1 :=
        ⟨hstart.1.resolve_left h2.1, hstart.2.1.resolve_left h2.2.1,
          hstart.2.2.resolve_left h2.2.2⟩
      rw [ih (start + 1) rv cv bv (fun j hj1 hj2 => h j (by omega) (by omega))]
      have hiff : (∀ j ∈ Finset.Ico (start + 1) (start + 1 + n),
          rv j = 1 ∧ cv j = 1 ∧ bv j = 1) ↔
          (∀ j ∈ Finset.Ico start (start + (n + 1)), rv j = 1 ∧ cv j = 1 ∧ bv j = 1) := by
        constructor
        · intro hA j hj
          rw [Finset.mem_Ico] at hj
          by_cases hjs : j = start
          · rw [hjs]
            exact hall1
          · exact hA j (Finset.mem_Ico.mpr ⟨by omega, by omega⟩)
        · intro hB j hj
          rw [Finset.mem_Ico] at hj
          exact hB j (Finset.mem_Ico.mpr ⟨by omega, by omega⟩)
      rw [Prod.mk.injEq]
      exact ⟨by rw [decide_eq_decide]; exact hiff, rfl⟩

theorem aggLoop_err_valid_false (rv cv bv : Nat → Int) :
    ∀ (fuel start : Nat), (aggLoop rv cv bv start fuel).2 = true →
      aggLoop rv cv bv start fuel = (false, true) := by
  intro fuel
  induction fuel with
  | zero =>
    intro start h
    exact absurd h (by simp [aggLoop])
  | succ n ih =>
    intro start h
    show (if rv start = -1 ∨ cv start = -1 ∨ bv start = -1 then (false, true)
      else if rv start = 0 ∨ cv start = 0 ∨ bv start = 0 then (false, false)
      else aggLoop rv cv bv (start + 1) n) = _
    by_cases h1 : rv start = -1 ∨ cv start = -1 ∨ bv start = -1
    · rw [if_pos h1]
    · rw [if_neg h1]
      by_cases h2 : rv start = 0 ∨ cv start = 0 ∨ bv start = 0
      · exfalso
        have := h
        show False
        rw [show aggLoop rv cv bv start (n + 1) =
          (if rv start = -1 ∨ cv start = -1 ∨ bv start = -1 then (false, true)
            else if rv start = 0 ∨ cv start = 0 ∨ bv start = 0 then (false, false)
            else aggLoop rv cv bv (start + 1) n) from rfl, if_neg h1, if_pos h2] at this
        exact absurd this (by norm_num)
      · rw [if_neg h2]
        apply ih
        have hrw : aggLoop rv cv bv start (n + 1) = aggLoop rv cv bv (start + 1) n := by
          show (if rv start = -1 ∨ cv start = -1 ∨ bv start = -1 then (false, true)
            else if rv start = 0 ∨ cv start = 0 ∨ bv start = 0 then (false, false)
            else aggLoop rv cv bv (start + 1) n) = _
          rw [if_neg h1, if_neg h2]
        rwa [hrw] at h

theorem foldl_complete (q : Nat → Bool) :
    ∀ (L : List Nat) (b : Bool),
      L.foldl (fun c r => if q r then false else c) b = (b && L.all (fun r => !q r)) := by
  intro L
  induction L with
  | nil => intro b; simp
  | cons r rs ih =>
    intro b
    rw [List.foldl_cons, ih, List.all_cons]
    by_cases hq : q r = true
    · rw [if_pos hq, hq]
      simp
    · rw [if_neg hq, Bool.not_eq_true] at *
      rw [hq]
      simp

theorem verifyPuzzleComplete_iff (grid : Nat → Nat → Int) (size : Nat) :
    verifyPuzzleComplete grid size = true ↔
      ∀ r ∈ Finset.Icc 1 size, ∀ c ∈ Finset.Icc 1 size, grid r c ≠ 0 := by
  rw [verifyPuzzleComplete, foldl_complete, Bool.true_and, List.all_eq_true]
  constructor
  · intro h r hr c hc
    rw [Finset.mem_Icc] at hr hc
    have hrow := h (r - 1) (List.mem_range.mpr (by omega))
    rw [Bool.not_eq_true', rowHasZero] at hrow
    have hr1 : r - 1 + 1 = r := by omega
    rw [hr1] at hrow
    intro hzero
    have : (List.range size).any (fun c => grid r (c + 1) == 0) = true := by
      rw [List.any_eq_true]
      refine ⟨c - 1, List.mem_range.mpr (by omega), ?_⟩
      have hc1 : c - 1 + 1 = c := by omega
      rw [hc1, hzero]
      rfl
    rw [this] at hrow
    exact absurd hrow (by norm_num)
  · intro h i hi
    rw [List.mem_range] at hi
    rw [Bool.not_eq_true', rowHasZero]
    rw [Bool.eq_false_iff]
    intro hany
    rw [List.any_eq_true] at hany
    obtain ⟨c, hc, hzero⟩ := hany
    rw [List.mem_range] at hc
    rw [beq_iff_eq] at hzero
    exact h (i + 1) (Finset.mem_Icc.mpr (by omega)) (c + 1)
      (Finset.mem_Icc.mpr (by omega)) hzero

/-! ### Helper lemmas about box enumeration and unit value lists -/

theorem boxStarts_square (B : Nat) :
    boxStarts (B * B) = (List.range B).map (fun k => 1 + k * B) := by
  rcases Nat.eq_zero_or_pos B with hB | hB
  · rw [hB]
    rfl
  · rw [boxStarts, intSqrt_eq_sqrt, Nat.sqrt_eq]
    have hdiv : (B * B + B - 1) / B = B := by
      have h1 : B * B + B - 1 = (B - 1) + B * B := by
        generalize B * B = M
        omega
      rw [h1, Nat.add_mul_div_left _ _ hB, Nat.div_eq_of_lt (by omega)]
      omega
    rw [hdiv]

theorem length_flatMap_const {α β : Type} (l : List α) (f : α → List β) (k : Nat)
    (h : ∀ x ∈ l, (f x).length = k) : (l.flatMap f).length = l.length * k := by
  induction l with
  | nil => simp
  | cons x xs ih =>
    rw [List.flatMap_cons, List.length_append, h x (List.mem_cons_self _ _),
      ih (fun y hy => h y (List.mem_cons_of_mem _ hy)), List.length_cons]
    ring

theorem length_boxPairs_square (B : Nat) : (boxPairs (B * B)).length = B * B := by
  rw [boxPairs, boxStarts_square]
  rw [length_flatMap_const _ _ B
    (fun x _ => by rw [List.length_map, List.length_map, List.length_range])]
  rw [List.length_map, List.length_range]

theorem mem_boxPairs_square (B : Nat) (p : Nat × Nat) :
    p ∈ boxPairs (B * B) ↔ ∃ a < B, ∃ b < B, p = (1 + a * B, 1 + b * B) := by
  rw [boxPairs, boxStarts_square, List.mem_flatMap]
  constructor
  · rintro ⟨r, hr, hp⟩
    rw [List.mem_map] at hr
    obtain ⟨a, ha, rfl⟩ := hr
    rw [List.mem_map] at hp
    obtain ⟨c, hc, rfl⟩ := hp
    rw [List.mem_map] at hc
    obtain ⟨b, hb, rfl⟩ := hc
    rw [List.mem_range] at ha hb
    exact ⟨a, ha, b, hb, rfl⟩
  · rintro ⟨a, ha, b, hb, rfl⟩
    refine ⟨1 + a * B, List.mem_map.mpr ⟨a, List.mem_range.mpr ha, rfl⟩, ?_⟩
    exact List.mem_map.mpr ⟨1 + b * B, List.mem_map.mpr ⟨b, List.mem_range.mpr hb, rfl⟩, rfl⟩

theorem length_rowVals (grid : Nat → Nat → Int) (size row : Nat) :
    (rowVals grid size row).length = size := by
  rw [rowVals, List.length_map, List.length_range]

theorem length_colVals (grid : Nat → Nat → Int) (size col : Nat) :
    (colVals grid size col).length = size := by
  rw [colVals, List.length_map, List.length_range]

theorem length_boxVals_square (grid : Nat → Nat → Int) (B row col : Nat) :
    (boxVals grid (B * B) row col).length = B * B := by
  rw [boxVals, intSqrt_eq_sqrt, Nat.sqrt_eq]
  rw [length_flatMap_const _ _ B (fun x _ => by rw [List.length_map, List.length_range])]
  rw [List.length_range]

theorem mem_rowVals (grid : Nat → Nat → Int) (size row : Nat) (v : Int) :
    v ∈ rowVals grid size row ↔ ∃ i < size, grid row (i + 1) = v := by
  rw [rowVals, List.mem_map]
  constructor
  · rintro ⟨i, hi, rfl⟩
    exact ⟨i, List.mem_range.mp hi, rfl⟩
  · rintro ⟨i, hi, rfl⟩
    exact ⟨i, List.mem_range.mpr hi, rfl⟩

theorem mem_colVals (grid : Nat → Nat → Int) (size col : Nat) (v : Int) :
    v ∈ colVals grid size col ↔ ∃ i < size, grid (i + 1) col = v := by
  rw [colVals, List.mem_map]
  constructor
  · rintro ⟨i, hi, rfl⟩
    exact ⟨i, List.mem_range.mp hi, rfl⟩
  · rintro ⟨i, hi, rfl⟩
    exact ⟨i, List.mem_range.mpr hi, rfl⟩

theorem mem_boxVals (grid : Nat → Nat → Int) (size row col : Nat) (v : Int) :
    v ∈ boxVals grid size row col ↔
      ∃ dr < intSqrt size, ∃ dc < intSqrt size, grid (row + dr) (col + dc) = v := by
  rw [boxVals, List.mem_flatMap]
  constructor
  · rintro ⟨x, hx, hv⟩
    rw [List.mem_range] at hx
    rw [List.mem_map] at hv
    obtain ⟨dc, hdc, rfl⟩ := hv
    exact ⟨x, hx, dc, List.mem_range.mp hdc, rfl⟩
  · rintro ⟨dr, hdr, dc, hdc, rfl⟩
    exact ⟨dr, List.mem_range.mpr hdr,
      List.mem_map.mpr ⟨dc, List.mem_range.mpr hdc, rfl⟩⟩

/-! ### Bundled characterizations of the three phases -/

theorem rowPhase_char (psize : Nat) (grid : Nat → Nat → Int) (vd : Nat → Int)
    (a : Nat → Int)
    (hsome : ∀ r ∈ List.range psize, checkRow psize grid (r + 1) = some (vd r)) :
    ∃ rv, rowPhase psize grid a = some rv ∧
      ∀ j, 1 ≤ j → j ≤ psize → rv j = vd (j - 1) := by
  refine ⟨(List.range psize).foldl (fun a r => vset a (r + 1) (vd r)) a, ?_, ?_⟩
  · exact phase_foldlM_ok (fun r => checkRow psize grid (r + 1)) vd (List.range psize) a hsome
  · intro j h1 h2
    rw [phase_foldl_char]
    rw [if_pos ⟨List.mem_range.mpr (by omega), h1⟩]

theorem colPhase_char (psize : Nat) (grid : Nat → Nat → Int) (vd : Nat → Int)
    (a : Nat → Int)
    (hsome : ∀ r ∈ List.range psize, checkCol psize grid (r + 1) = some (vd r)) :
    ∃ cv, colPhase psize grid a = some cv ∧
      ∀ j, 1 ≤ j → j ≤ psize → cv j = vd (j - 1) := by
  refine ⟨(List.range psize).foldl (fun a r => vset a (r + 1) (vd r)) a, ?_, ?_⟩
  · exact phase_foldlM_ok (fun r => checkCol psize grid (r + 1)) vd (List.range psize) a hsome
  · intro j h1 h2
    rw [phase_foldl_char]
    rw [if_pos ⟨List.mem_range.mpr (by omega), h1⟩]

theorem boxPhase_char (psize : Nat) (grid : Nat → Nat → Int) (bvd : Nat × Nat → Int)
    (a : Nat → Int) (c : Nat)
    (hsome : ∀ p ∈ boxPairs psize, checkBox psize grid p.1 p.2 = some (bvd p)) :
    ∃ bv bc2, boxPhase psize grid (a, c) = some (bv, bc2) ∧
      bc2 = c + (boxPairs psize).length ∧
      (∀ j, c ≤ j → j < c + (boxPairs psize).length →
        ∃ p ∈ boxPairs psize, bv j = bvd p) ∧
      ((∀ j, c ≤ j → j < c + (boxPairs psize).length → bv j = 1) ↔
        ∀ p ∈ boxPairs psize, bvd p = 1) := by
  refine ⟨((boxPairs psize).foldl (fun st p => (vset st.1 st.2 (bvd p), st.2 + 1)) (a, c)).1,
    ((boxPairs psize).foldl (fun st p => (vset st.1 st.2 (bvd p), st.2 + 1)) (a, c)).2,
    ?_, ?_, ?_, ?_⟩
  · rw [Prod.mk.eta]
    exact boxfold_ok psize grid bvd (boxPairs psize) a c hsome
  · exact boxfold_bc bvd (boxPairs psize) a c
  · intro j h1 h2
    exact boxfold_vals bvd (boxPairs psize) a c j h1 h2
  · exact boxfold_allone bvd (boxPairs psize) a c

/-- C1: for every complete grid of size `N = B * B` whose cells all lie in
`1 … N` (the data-model invariant for a complete Grid), a fresh `checkPuzzle`
run (global `boxCount = 1`, workers in dispatch order) reports
`complete = true`, and `valid = true` exactly when every row, every column
and every box is a permutation of `1 … N`, in both directions. -/
theorem checkPuzzle_valid_iff_units_perm (B : Nat) (g : Nat → Nat → Int)
    (hg : ∀ r ∈ Finset.Icc 1 (B * B), ∀ c ∈ Finset.Icc 1 (B * B),
      1 ≤ g r c ∧ g r c ≤ ((B * B : Nat) : Int)) :
    ∃ res, checkPuzzle (B * B) g 1 = some res ∧ res.complete = true ∧
      (res.valid = some true ↔
        ((∀ r ∈ Finset.Icc 1 (B * B), (rowVals g (B * B) r).Perm (oneToN (B * B))) ∧
         (∀ c ∈ Finset.Icc 1 (B * B), (colVals g (B * B) c).Perm (oneToN (B * B))) ∧
         (∀ a ∈ Finset.range B, ∀ b ∈ Finset.range B,
           (boxVals g (B * B) (1 + a * B) (1 + b * B)).Perm (oneToN (B * B))))) := by
  have hcomp : verifyPuzzleComplete g (B * B) = true := by
    rw [verifyPuzzleComplete_iff]
    intro r hr c hc
    have hv := hg r hr c hc
    omega
  have hrowW : ∀ j, 1 ≤ j → j ≤ B * B → ∃ w, checkRow (B * B) g j = some w ∧
      (w = 0 ∨ w = 1) ∧
      (w = 1 ↔ ∀ k ∈ Finset.Icc 1 (B * B), (k : Int) ∈ rowVals g (B * B) j) := by
    intro j h1 h2
    have hin : ∀ v ∈ rowVals g (B * B) j, 0 ≤ v ∧ v ≤ ((B * B : Nat) : Int) := by
      intro v hv
      rw [mem_rowVals] at hv
      obtain ⟨i, hi, rfl⟩ := hv
      have hval := hg j (Finset.mem_Icc.mpr ⟨h1, h2⟩) (i + 1)
        (Finset.mem_Icc.mpr ⟨by omega, by omega⟩)
      omega
    exact unitVerdict_ok (B * B) _ hin
  have hcolW : ∀ j, 1 ≤ j → j ≤ B * B → ∃ w, checkCol (B * B) g j = some w ∧
      (w = 0 ∨ w = 1) ∧
      (w = 1 ↔ ∀ k ∈ Finset.Icc 1 (B * B), (k : Int) ∈ colVals g (B * B) j) := by
    intro j h1 h2
    have hin : ∀ v ∈ colVals g (B * B) j, 0 ≤ v ∧ v ≤ ((B * B : Nat) : Int) := by
      intro v hv
      rw [mem_colVals] at hv
      obtain ⟨i, hi, rfl⟩ := hv
      have hval := hg (i + 1) (Finset.mem_Icc.mpr ⟨by omega, by omega⟩) j
        (Finset.mem_Icc.mpr ⟨h1, h2⟩)
      omega
    exact unitVerdict_ok (B * B) _ hin
  have hboxW : ∀ p ∈ boxPairs (B * B), ∃ w, checkBox (B * B) g p.1 p.2 = some w ∧
      (w = 0 ∨ w = 1) ∧
      (w = 1 ↔ ∀ k ∈ Finset.Icc 1 (B * B), (k : Int) ∈ boxVals g (B * B) p.1 p.2) := by
    intro p hp
    have hin : ∀ v ∈ boxVals g (B * B) p.1 p.2, 0 ≤ v ∧ v ≤ ((B * B : Nat) : Int) := by
      rw [mem_boxPairs_square] at hp
      obtain ⟨a, ha, b, hb, rfl⟩ := hp
      intro v hv
      rw [mem_boxVals, intSqrt_eq_sqrt, Nat.sqrt_eq] at hv
      obtain ⟨dr, hdr, dc, hdc, rfl⟩ := hv
      have h2a : (a + 1) * B ≤ B * B := Nat.mul_le_mul_right B (by omega)
      rw [add_one_mul] at h2a
      have h4a : a * B + dr < B * B := lt_of_lt_of_le (Nat.add_lt_add_left hdr (a * B)) h2a
      have h2b : (b + 1) * B ≤ B * B := Nat.mul_le_mul_right B (by omega)
      rw [add_one_mul] at h2b
      have h4b : b * B + dc < B * B := lt_of_lt_of_le (Nat.add_lt_add_left hdc (b * B)) h2b
      dsimp only
      have hval := hg (1 + a * B + dr) (Finset.mem_Icc.mpr ⟨by omega, by omega⟩)
        (1 + b * B + dc) (Finset.mem_Icc.mpr ⟨by omega, by omega⟩)
      omega
    exact unitVerdict_ok (B * B) _ hin
  have hrsome : ∀ r ∈ List.range (B * B),
      checkRow (B * B) g (r + 1) = some ((checkRow (B * B) g (r + 1)).getD 0) := by
    intro r hr
    rw [List.mem_range] at hr
    obtain ⟨w, hw, -, -⟩ := hrowW (r + 1) (by omega) (by omega)
    rw [hw]
    rfl
  have hcsome : ∀ r ∈ List.range (B * B),
      checkCol (B * B) g (r + 1) = some ((checkCol (B * B) g (r + 1)).getD 0) := by
    intro r hr
    rw [List.mem_range] at hr
    obtain ⟨w, hw, -, -⟩ := hcolW (r + 1) (by omega) (by omega)
    rw [hw]
    rfl
  have hbsome : ∀ p ∈ boxPairs (B * B),
      checkBox (B * B) g p.1 p.2 = some ((checkBox (B * B) g p.1 p.2).getD 0) := by
    intro p hp
    obtain ⟨w, hw, -, -⟩ := hboxW p hp
    rw [hw]
    rfl
  obtain ⟨rv, hrphase, hrv⟩ := rowPhase_char (B * B) g
    (fun r => (checkRow (B * B) g (r + 1)).getD 0) emptyValidity hrsome
  obtain ⟨cv, hcphase, hcv⟩ := colPhase_char (B * B) g
    (fun r => (checkCol (B * B) g (r + 1)).getD 0) emptyValidity hcsome
  obtain ⟨bv, bc2, hbphase, hbc2, hbvals, hballiff⟩ := boxPhase_char (B * B) g
    (fun p => (checkBox (B * B) g p.1 p.2).getD 0) emptyValidity 1 hbsome
  have hlenbp : (boxPairs (B * B)).length = B * B := length_boxPairs_square B
  rw [hlenbp] at hbc2 hbvals hballiff
  have hrvj : ∀ j, 1 ≤ j → j ≤ B * B → rv j = (checkRow (B * B) g j).getD 0 := by
    intro j h1 h2
    have h := hrv j h1 h2
    rwa [show j - 1 + 1 = j from by omega] at h
  have hcvj : ∀ j, 1 ≤ j → j ≤ B * B → cv j = (checkCol (B * B) g j).getD 0 := by
    intro j h1 h2
    have h := hcv j h1 h2
    rwa [show j - 1 + 1 = j from by omega] at h
  have hslots : ∀ j, 1 ≤ j → j < 1 + B * B →
      (rv j = 0 ∨ rv j = 1) ∧ (cv j = 0 ∨ cv j = 1) ∧ (bv j = 0 ∨ bv j = 1) := by
    intro j h1 h2
    refine ⟨?_, ?_, ?_⟩
    · obtain ⟨w, hw, h01, -⟩ := hrowW j h1 (by omega)
      rw [hrvj j h1 (by omega), hw]
      exact h01
    · obtain ⟨w, hw, h01, -⟩ := hcolW j h1 (by omega)
      rw [hcvj j h1 (by omega), hw]
      exact h01
    · obtain ⟨p, hp, hbj⟩ := hbvals j h1 h2
      obtain ⟨w, hw, h01, -⟩ := hboxW p hp
      rw [hbj, hw]
      exact h01
  have hagg := aggLoop_char (B * B) 1 rv cv bv hslots
  refine ⟨⟨true, some (aggregate (B * B) rv cv bv).1, (aggregate (B * B) rv cv bv).2, bc2,
      B * B + B * B + (boxPairs (B * B)).length⟩, ?_, rfl, ?_⟩
  · rw [checkPuzzle, if_pos hcomp, hrphase, hcphase, hbphase]
    rfl
  · show some (aggLoop rv cv bv 1 (B * B)).1 = some true ↔ _
    rw [hagg, Option.some_inj]
    show decide _ = true ↔ _
    rw [decide_eq_true_iff]
    constructor
    · intro hP
      refine ⟨?_, ?_, ?_⟩
      · intro r hr
        rw [Finset.mem_Icc] at hr
        obtain ⟨w, hw, -, hiff⟩ := hrowW r hr.1 hr.2
        have h1 : rv r = 1 := (hP r (Finset.mem_Ico.mpr ⟨hr.1, by omega⟩)).1
        rw [hrvj r hr.1 hr.2, hw] at h1
        exact (covers_iff_perm (B * B) _ (length_rowVals g (B * B) r)).mp (hiff.mp h1)
      · intro c hc
        rw [Finset.mem_Icc] at hc
        obtain ⟨w, hw, -, hiff⟩ := hcolW c hc.1 hc.2
        have h1 : cv c = 1 := (hP c (Finset.mem_Ico.mpr ⟨hc.1, by omega⟩)).2.1
        rw [hcvj c hc.1 hc.2, hw] at h1
        exact (covers_iff_perm (B * B) _ (length_colVals g (B * B) c)).mp (hiff.mp h1)
      · have hallb : ∀ p ∈ boxPairs (B * B), (checkBox (B * B) g p.1 p.2).getD 0 = 1 := by
          have hbv1 : ∀ j, 1 ≤ j → j < 1 + B * B → bv j = 1 :=
            fun j h1 h2 => (hP j (Finset.mem_Ico.mpr ⟨h1, h2⟩)).2.2
          exact hballiff.mp hbv1
        intro a ha b hb
        rw [Finset.mem_range] at ha hb
        have hpmem : ((1 + a * B, 1 + b * B) : Nat × Nat) ∈ boxPairs (B * B) :=
          (mem_boxPairs_square B _).mpr ⟨a, ha, b, hb, rfl⟩
        obtain ⟨w, hw, -, hiff⟩ := hboxW _ hpmem
        have h1 := hallb _ hpmem
        rw [hw] at h1
        have hw1 : w = 1 := h1
        exact (covers_iff_perm (B * B) _
          (length_boxVals_square g B (1 + a * B) (1 + b * B))).mp (hiff.mp hw1)
    · intro hR j hj
      rw [Finset.mem_Ico] at hj
      refine ⟨?_, ?_, ?_⟩
      · obtain ⟨w, hw, -, hiff⟩ := hrowW j hj.1 (by omega)
        rw [hrvj j hj.1 (by omega), hw]
        exact hiff.mpr ((covers_iff_perm (B * B) _ (length_rowVals g (B * B) j)).mpr
          (hR.1 j (Finset.mem_Icc.mpr ⟨hj.1, by omega⟩)))
      · obtain ⟨w, hw, -, hiff⟩ := hcolW j hj.1 (by omega)
        rw [hcvj j hj.1 (by omega), hw]
        exact hiff.mpr ((covers_iff_perm (B * B) _ (length_colVals g (B * B) j)).mpr
          (hR.2.1 j (Finset.mem_Icc.mpr ⟨hj.1, by omega⟩)))
      · have hallb : ∀ p ∈ boxPairs (B * B), (checkBox (B * B) g p.1 p.2).getD 0 = 1 := by
          intro p hp
          have hpc := (mem_boxPairs_square B p).mp hp
          obtain ⟨a, ha, b, hb, rfl⟩ := hpc
          obtain ⟨w, hw, -, hiff⟩ := hboxW _ hp
          rw [hw]
          exact hiff.mpr ((covers_iff_perm (B * B) _
            (length_boxVals_square g B (1 + a * B) (1 + b * B))).mpr
            (hR.2.2 a (Finset.mem_range.mpr ha) b (Finset.mem_range.mpr hb)))
        exact hballiff.mpr hallb j hj.1 hj.2

/-- Claim C1 witness: the trivial solved puzzle `[1]` (B = 1) satisfies the
hypothesis, and the theorem applies to it. -/
theorem checkPuzzle_valid_iff_units_perm_witness :
    (∀ r ∈ Finset.Icc 1 (1 * 1), ∀ c ∈ Finset.Icc 1 (1 * 1),
      1 ≤ onesGrid r c ∧ onesGrid r c ≤ ((1 * 1 : Nat) : Int)) ∧
    (∃ res, checkPuzzle (1 * 1) onesGrid 1 = some res ∧ res.complete = true ∧
      (res.valid = some true ↔
        ((∀ r ∈ Finset.Icc 1 (1 * 1), (rowVals onesGrid (1 * 1) r).Perm (oneToN (1 * 1))) ∧
         (∀ c ∈ Finset.Icc 1 (1 * 1), (colVals onesGrid (1 * 1) c).Perm (oneToN (1 * 1))) ∧
         (∀ a ∈ Finset.range 1, ∀ b ∈ Finset.range 1,
           (boxVals onesGrid (1 * 1) (1 + a * 1) (1 + b * 1)).Perm (oneToN (1 * 1)))))) :=
  ⟨by decide, checkPuzzle_valid_iff_units_perm 1 onesGrid (by decide)⟩

/-- Claim C2: a grid with a `0` cell makes `checkPuzzle` report
`complete = false` and return at once: `*valid` is never written
(`valid = none`), no unit-checker thread is created (`dispatched = 0`), and
the global `boxCount` is untouched. -/
theorem checkPuzzle_incomplete_early_return (psize : Nat) (g : Nat → Nat → Int) (bc : Nat)
    (h : ∃ r ∈ Finset.Icc 1 psize, ∃ c ∈ Finset.Icc 1 psize, g r c = 0) :
    checkPuzzle psize g bc = some ⟨false, none, false, bc, 0⟩ := by
  have hc : ¬(verifyPuzzleComplete g psize = true) := by
    rw [verifyPuzzleComplete_iff]
    intro hall
    obtain ⟨r, hr, c, hcm, hz⟩ := h
    exact hall r hr c hcm hz
  rw [checkPuzzle, if_neg hc]

/-- Claim C2 witness: the all-zero 1×1 grid. -/
theorem checkPuzzle_incomplete_early_return_witness :
    (∃ r ∈ Finset.Icc 1 1, ∃ c ∈ Finset.Icc 1 1, zeroGrid r c = 0) ∧
    checkPuzzle 1 zeroGrid 7 = some ⟨false, none, false, 7, 0⟩ :=
  ⟨by decide, checkPuzzle_incomplete_early_return 1 zeroGrid 7 (by decide)⟩

/-- Claim C3 (refuting theorem): the box workers obtain their verdict slot
from the shared global `boxCount`, so under the interleaving
`[0, 1, 0, 1]` (both workers execute `params->validity[boxCount] = …` before
either executes `boxCount = boxCount + 1`) the two distinct workers `0` and
`1` both write slot `1`; under `[0, 0, 1, 1]` worker `1` writes slot `2`
instead — the slot is schedule-dependent, not derived from the box position. -/
theorem boxRace_same_slot_write :
    (raceRun raceInit [0, 1, 0, 1]).writes = [(0, 1), (1, 1)] ∧
    (raceRun raceInit [0, 0, 1, 1]).writes = [(0, 1), (1, 2)] :=
  ⟨rfl, rfl⟩

/-- Claim C4 (refuting theorem): `checkPuzzle` performs no configuration
check.  For `psize = 2` (no integer square root: `boxSize = 1`), the complete
grid `[[1,2],[2,1]]` is not rejected: 8 unit checks are dispatched (2 rows,
2 columns, and 4 ill-formed single-cell boxes, the last two of which write
verdict slots 3 and 4 beyond the `psize + 1` C array) and a validity verdict
is produced instead of a configuration error. -/
theorem checkPuzzle_accepts_invalid_size :
    checkPuzzle 2 (gridOfRows [[1, 2], [2, 1]]) 1 = some ⟨true, some false, false, 5, 8⟩ := by
  decide

/-- Claim C5 (refuting theorem): a unit value outside `1 … N` is not turned
into an INVALID verdict: the value `2` in a 1-cell unit makes the checker
store to `foundVals[2]`, one past the end of the 2-entry C array (undefined
behaviour, modelled as `none`), rather than returning INVALID; only the
in-bounds out-of-range value `0` yields INVALID (`some 0`). -/
theorem unit_checker_oob :
    unitVerdict 1 [(2 : Int)] = none ∧ unitVerdict 1 [(0 : Int)] = some 0 := by
  decide

/-- Claim C6 (counterexample): a run in which every box verdict slot in
`1 … psize` stays UNCHECKED (here: a second `checkPuzzle` call, with the
global `boxCount` left at 2 by a first call on the solved 1×1 puzzle).  The
code does print the internal error (`orchErr = true`) but also maps the
condition onto the puzzle verdict: `*valid` is set to `false`. -/
theorem checkPuzzle_unchecked_mapped_to_invalid :
    checkPuzzle 1 onesGrid 2 = some ⟨true, some false, true, 3, 3⟩ := by
  decide

/-- Claim C6 (amended): whenever a verdict slot is found still UNCHECKED
during aggregation, `checkPuzzle` prints the internal orchestration error
(`orchErr = true`) but ALSO sets the result `valid` to `false`. -/
theorem checkPuzzle_orchErr_valid_false (psize : Nat) (g : Nat → Nat → Int) (bc : Nat)
    (res : PuzzleResult) (h : checkPuzzle psize g bc = some res)
    (herr : res.orchErr = true) : res.valid = some false := by
  rw [checkPuzzle] at h
  by_cases hc : verifyPuzzleComplete g psize = true
  · rw [if_pos hc] at h
    cases hr : rowPhase psize g emptyValidity with
    | none =>
      rw [hr] at h
      exact Option.noConfusion h
    | some rv =>
      rw [hr] at h
      cases hc2 : colPhase psize g emptyValidity with
      | none =>
        rw [hc2] at h
        exact Option.noConfusion h
      | some cv =>
        rw [hc2] at h
        cases hb : boxPhase psize g (emptyValidity, bc) with
        | none =>
          rw [hb] at h
          exact Option.noConfusion h
        | some bst =>
          rw [hb] at h
          have h2 : (⟨true, some (aggregate psize rv cv bst.1).1,
              (aggregate psize rv cv bst.1).2, bst.2,
              psize + psize + (boxPairs psize).length⟩ : PuzzleResult) = res :=
            Option.some_inj.mp h
          rw [← h2] at herr ⊢
          have herr2 : (aggLoop rv cv bst.1 1 psize).2 = true := herr
          have hfalse := aggLoop_err_valid_false rv cv bst.1 psize 1 herr2
          show some (aggLoop rv cv bst.1 1 psize).1 = some false
          rw [hfalse]
  · rw [if_neg hc] at h
    have h2 : (⟨false, none, false, bc, 0⟩ : PuzzleResult) = res := Option.some_inj.mp h
    rw [← h2] at herr
    exact Bool.noConfusion herr

/-- Claim C6 (amended) witness: the concrete stale-counter run. -/
theorem checkPuzzle_orchErr_valid_false_witness :
    (checkPuzzle 1 onesGrid 2 = some ⟨true, some false, true, 3, 3⟩ ∧
      (⟨true, some false, true, 3, 3⟩ : PuzzleResult).orchErr = true) ∧
    (⟨true, some false, true, 3, 3⟩ : PuzzleResult).valid = some false :=
  ⟨⟨by decide, rfl⟩, checkPuzzle_orchErr_valid_false 1 onesGrid 2 _ (by decide) rfl⟩

/-- Claim C7 (refuting theorem): `checkPuzzle` is not idempotent.  The global
`boxCount` starts at 1; a first run on the solved 1×1 puzzle returns
`(complete, valid) = (true, true)` and leaves `boxCount = 2`; the second run
then stores its box verdict into slot 2 (past the end of the freshly
allocated 2-entry `boxValidity` array), leaves slot 1 UNCHECKED, prints the
orchestration error and returns `(true, false)`. -/
theorem checkPuzzle_not_idempotent :
    checkPuzzle 1 onesGrid 1 = some ⟨true, some true, false, 2, 3⟩ ∧
    checkPuzzle 1 onesGrid 2 = some ⟨true, some false, true, 3, 3⟩ := by
  decide

/-- Claim C8: for a unit of exactly `N` values, the verdict is VALID
(`some 1`) iff every value `1 … N` appears in the unit, and that coverage is
in turn equivalent to the unit being a permutation of `1 … N` (so no
separate duplicate check is needed). -/
theorem unitVerdict_valid_iff_covers (N : Nat) (vals : List Int) (hlen : vals.length = N) :
    ((unitVerdict N vals = some 1) ↔ ∀ k ∈ Finset.Icc 1 N, (k : Int) ∈ vals) ∧
    ((∀ k ∈ Finset.Icc 1 N, (k : Int) ∈ vals) ↔ vals.Perm (oneToN N)) := by
  refine ⟨?_, covers_iff_perm N vals hlen⟩
  constructor
  · intro h1
    by_cases hin : ∀ v ∈ vals, 0 ≤ v ∧ v ≤ (N : Int)
    · obtain ⟨w, hw, -, hiff⟩ := unitVerdict_ok N vals hin
      rw [hw] at h1
      exact hiff.mp (Option.some_inj.mp h1)
    · exfalso
      have hex : ∃ v ∈ vals, ¬(0 ≤ v ∧ v ≤ (N : Int)) := by
        by_contra hcon
        push_neg at hcon
        exact hin hcon
      rw [unitVerdict_bad N vals hex] at h1
      exact Option.noConfusion h1
  · intro hcov
    have hperm := (covers_iff_perm N vals hlen).mp hcov
    have hin : ∀ v ∈ vals, 0 ≤ v ∧ v ≤ (N : Int) := by
      intro v hv
      have hm : v ∈ oneToN N := hperm.mem_iff.mp hv
      rw [mem_oneToN] at hm
      omega
    obtain ⟨w, hw, -, hiff⟩ := unitVerdict_ok N vals hin
    rw [hw, hiff.mpr hcov]

/-- Claim C8 witness: the unit `[2, 1]` at `N = 2`. -/
theorem unitVerdict_valid_iff_covers_witness :
    ([(2 : Int), 1].length = 2) ∧
    (((unitVerdict 2 [(2 : Int), 1] = some 1) ↔
        ∀ k : Nat, k ∈ Finset.Icc 1 2 → (k : Int) ∈ [(2 : Int), 1]) ∧
      ((∀ k : Nat, k ∈ Finset.Icc 1 2 → (k : Int) ∈ [(2 : Int), 1]) ↔
        [(2 : Int), 1].Perm (oneToN 2))) :=
  ⟨rfl, unitVerdict_valid_iff_covers 2 [2, 1] rfl⟩

/-- Claim C9: the unit checker is order-independent — permuting the values
of a unit never changes its verdict (including the trap outcome). -/
theorem unitVerdict_perm_invariant (N : Nat) (v1 v2 : List Int) (hperm : v1.Perm v2) :
    unitVerdict N v1 = unitVerdict N v2 := by
  by_cases hin : ∀ v ∈ v1, 0 ≤ v ∧ v ≤ (N : Int)
  · have hin2 : ∀ v ∈ v2, 0 ≤ v ∧ v ≤ (N : Int) := fun v hv => hin v (hperm.mem_iff.mpr hv)
    obtain ⟨w1, hw1, h011, hiff1⟩ := unitVerdict_ok N v1 hin
    obtain ⟨w2, hw2, h012, hiff2⟩ := unitVerdict_ok N v2 hin2
    rw [hw1, hw2]
    have hcov : (∀ k ∈ Finset.Icc 1 N, (k : Int) ∈ v1) ↔
        (∀ k ∈ Finset.Icc 1 N, (k : Int) ∈ v2) := by
      constructor
      · intro hc k hk
        exact hperm.mem_iff.mp (hc k hk)
      · intro hc k hk
        exact hperm.mem_iff.mpr (hc k hk)
    congr 1
    by_cases hc : ∀ k ∈ Finset.Icc 1 N, (k : Int) ∈ v1
    · rw [hiff1.mpr hc, hiff2.mpr (hcov.mp hc)]
    · rcases h011 with h0 | h0
      · rcases h012 with h02 | h02
        · rw [h0, h02]
        · exact absurd (hiff2.mp h02) (fun hcc => hc (hcov.mpr hcc))
      · exact absurd (hiff1.mp h0) hc
  · have hex1 : ∃ v ∈ v1, ¬(0 ≤ v ∧ v ≤ (N : Int)) := by
      by_contra hcon
      push_neg at hcon
      exact hin hcon
    have hex2 : ∃ v ∈ v2, ¬(0 ≤ v ∧ v ≤ (N : Int)) := by
      obtain ⟨v, hv, hbad⟩ := hex1
      exact ⟨v, hperm.mem_iff.mp hv, hbad⟩
    rw [unitVerdict_bad N v1 hex1, unitVerdict_bad N v2 hex2]

/-- Claim C9 witness: `[1, 2]` against its permutation `[2, 1]`. -/
theorem unitVerdict_perm_invariant_witness :
    ([(1 : Int), 2].Perm [(2 : Int), 1]) ∧
    unitVerdict 2 [(1 : Int), 2] = unitVerdict 2 [(2 : Int), 1] :=
  ⟨by decide, unitVerdict_perm_invariant 2 [1, 2] [2, 1] (by decide)⟩

/-- Claim C10: the completeness scanner returns `false` iff some cell in
rows `1 … N`, columns `1 … N` equals `0` (and hence `true` when no cell is
`0`). -/
theorem verifyPuzzleComplete_false_iff (g : Nat → Nat → Int) (N : Nat) :
    verifyPuzzleComplete g N = false ↔
      ∃ r ∈ Finset.Icc 1 N, ∃ c ∈ Finset.Icc 1 N, g r c = 0 := by
  constructor
  · intro h
    by_contra hcon
    push_neg at hcon
    have hall : ∀ r ∈ Finset.Icc 1 N, ∀ c ∈ Finset.Icc 1 N, g r c ≠ 0 := hcon
    rw [(verifyPuzzleComplete_iff g N).mpr hall] at h
    exact Bool.noConfusion h
  · intro hex
    rw [Bool.eq_false_iff]
    intro htrue
    obtain ⟨r, hr, c, hc, hz⟩ := hex
    exact (verifyPuzzleComplete_iff g N).mp htrue r hr c hc hz
